import Mathlib

/-!
# Verification of the conversation / LLM-streaming core

A shallow embedding, in Lean 4, of the repository's conversation core:

* `clean_response` (src/open_llm_vtuber/conversations/single_conversation.py),
  a pure pipeline of three Python `re.sub` passes;
* `chat_completion` (src/open_llm_vtuber/agent/stateless_llm/openai_compatible_llm.py),
  the streaming aggregator for text deltas and tool-call fragments together
  with its error-handling paths;
* `process_single_conversation` (single_conversation.py), the turn controller
  with its nested try/except/finally structure.

Machine strings are modelled as Lean `String`/`List Char`; Python truthiness
of optional strings ("" and None are falsy) is modelled explicitly; regex
substitution is modelled by structurally recursive scanners that follow
Python's leftmost, non-overlapping `re.sub` semantics (scanning resumes after
the end of each match).  Only the ASCII whitespace characters matched by
Python's `\s` are modelled.
-/

namespace Vtuber

/-! ## ResponseNormalizer: `clean_response`

Python source (single_conversation.py, lines 27-38):

    def clean_response(text: str) -> str:
        text = re.sub(r"\s*\[.*?\]\s*", " ", text)
        text = re.sub(r"([,\.!?;:])([^\s])", r"\1 \2", text)
        return re.sub(r"\s+", " ", text).strip()
-/

/-- The head of a character list, or a default. -/
def headOr (l : List Char) (a : Char) : Char :=
  match l with
  | [] => a
  | c :: _ => c

/-- Python `\s` on ASCII: space, tab, newline, carriage return,
vertical tab, form feed. -/
def isSpace (c : Char) : Bool :=
  c = ' ' || c = '\t' || c = '\n' || c = '\r' || c = '\x0b' || c = '\x0c'

/-- The punctuation class `[,\.!?;:]` of the second substitution. -/
def isPunct (c : Char) : Bool :=
  c = ',' || c = '.' || c = '!' || c = '?' || c = ';' || c = ':'

/-- Lazy `.*?\]` of the first regex: scan for the first `]`, failing on a
newline (Python `.` does not match `\n`).  Returns the suffix after `]`. -/
def findClose : List Char → Option (List Char)
  | [] => none
  | c :: cs => if c = ']' then some cs else if c = '\n' then none else findClose cs

/-- Try to match `\s*\[.*?\]\s*` anchored at the start of `l`; on success
return the suffix after the match (the trailing `\s*` is greedy). -/
def matchAnnotation (l : List Char) : Option (List Char) :=
  match l.dropWhile isSpace with
  | '[' :: body =>
    match findClose body with
    | some rest => some (rest.dropWhile isSpace)
    | none => none
  | _ => none

/-- One leftmost scan of `re.sub(r"\s*\[.*?\]\s*", " ", text)`: at each
position try the anchored match; on success emit a single space and resume
after the match.  `fuel` (total length of the input) makes the recursion
structural; a match always consumes at least two characters, so fuel equal
to the input length never runs out. -/
def removeAnnotationsGo : Nat → List Char → List Char
  | 0, l => l
  | fuel + 1, l =>
    match l with
    | [] => []
    | c :: cs =>
      match matchAnnotation (c :: cs) with
      | some rest => ' ' :: removeAnnotationsGo fuel rest
      | none => c :: removeAnnotationsGo fuel cs

/-- `re.sub(r"\s*\[.*?\]\s*", " ", text)`. -/
def removeAnnotations (l : List Char) : List Char :=
  removeAnnotationsGo l.length l

/-- `re.sub(r"([,\.!?;:])([^\s])", r"\1 \2", text)`: after a punctuation
character followed by a non-whitespace character, insert one space; the
scan resumes after the matched pair (Python's non-overlapping `re.sub`). -/
def spacePunct : List Char → List Char
  | [] => []
  | [c] => [c]
  | c :: d :: rest =>
    if isPunct c && !isSpace d then c :: ' ' :: d :: spacePunct rest
    else c :: spacePunct (d :: rest)

/-- `re.sub(r"\s+", " ", text)`: each maximal whitespace run becomes a single
space.  The flag records whether the previous character was part of a
whitespace run already emitted as `' '`. -/
def collapseAux : Bool → List Char → List Char
  | _, [] => []
  | prev, c :: cs =>
    if isSpace c then
      if prev then collapseAux true cs else ' ' :: collapseAux true cs
    else c :: collapseAux false cs

/-- `re.sub(r"\s+", " ", text)`. -/
def collapseWS (l : List Char) : List Char :=
  collapseAux false l

/-- Remove a maximal all-whitespace suffix (the trailing half of
Python `str.strip()`). -/
def dropTrailing : List Char → List Char
  | [] => []
  | c :: cs =>
    match dropTrailing cs with
    | [] => if isSpace c then [] else [c]
    | t => c :: t

/-- Python `str.strip()`: drop leading and trailing whitespace. -/
def stripBoth (l : List Char) : List Char :=
  dropTrailing (l.dropWhile isSpace)

/-- `clean_response` on character lists: the three `re.sub` passes then
`strip`, in source order. -/
def cleanL (l : List Char) : List Char :=
  stripBoth (collapseWS (spacePunct (removeAnnotations l)))

/-- `clean_response` (single_conversation.py lines 27-38). -/
def clean_response (s : String) : String :=
  (cleanL s.toList).asString

/-! ### Predicates used to state the (amended) idempotence claim -/

/-- Every punctuation character is followed by a whitespace character or is
last (the default `' '` makes end-of-string count as whitespace). -/
def punctSpaced : List Char → Bool
  | [] => true
  | c :: cs => (!isPunct c || isSpace (headOr cs ' ')) && punctSpaced cs

/-- Every whitespace character is a plain `' '` and is not followed by
another whitespace character. -/
def wsNormal : List Char → Bool
  | [] => true
  | c :: cs => (!isSpace c || (c = ' ' && !isSpace (headOr cs 'x'))) && wsNormal cs

/-- No punctuation character is immediately followed by another
punctuation character. -/
def noAdjPunct : List Char → Bool
  | [] => true
  | c :: cs => (!isPunct c || !isPunct (headOr cs ' ')) && noAdjPunct cs

/-- The last character, if any, is not whitespace. -/
def noTrailSpace : List Char → Bool
  | [] => true
  | [c] => !isSpace c
  | _ :: c :: cs => noTrailSpace (c :: cs)

/-! ## StreamAggregator: `chat_completion`
(openai_compatible_llm.py, lines 60-162)

A call of the async generator is modelled as a pure function of
* the instance's `support_tools` flag (line 54 / 85 / 154),
* the `tools` argument (`NOT_GIVEN` is `none`),
* the list of chunks the stream produced before it terminated, and
* how it terminated: normal end of stream, or an exception of one of the
  handled classes raised during `create`/iteration (for an exception during
  iteration the chunk list is the prefix consumed before the raise).

A chunk models `chunk.choices[0].delta`: its optional text `content` and its
`tool_calls` list (`None` and `[]` are both falsy, so a plain list suffices).
The generator's output is the list of values it yields plus the instance
flag after the call and the `tools` value passed to the backend request. -/

/-- Python truthiness of an optional string: `None` and `""` are falsy. -/
def optTruthy : Option String → Bool
  | some s => !s.isEmpty
  | none => false

/-- `tool_call.function` fragment: optional `name` and `arguments`. -/
structure ToolCallFunctionDelta where
  name : Option String
  arguments : Option String
deriving DecidableEq, Repr

/-- One element of `chunk.choices[0].delta.tool_calls`. -/
structure DeltaToolCall where
  index : Nat
  id : Option String
  type : Option String
  function : Option ToolCallFunctionDelta
deriving DecidableEq, Repr

/-- An accumulated tool-call record (the dict built at lines 112-117). -/
structure ToolCallRecord where
  index : Nat
  id : Option String
  type : Option String
  name : String
  arguments : String
deriving DecidableEq, Repr

/-- One streamed chunk, i.e. `chunk.choices[0].delta`. -/
structure Chunk where
  tool_calls : List DeltaToolCall
  content : Option String
deriving DecidableEq, Repr

/-- The fresh record of lines 112-117: raw `id`/`type` from the fragment,
empty `name` and `arguments`. -/
def initRecord (tc : DeltaToolCall) : ToolCallRecord :=
  { index := tc.index, id := tc.id, type := tc.type, name := "", arguments := "" }

/-- The per-fragment field updates of lines 118-126: truthy `id`/`type`/`name`
replace the stored value, truthy `arguments` is appended. -/
def updRecord (r : ToolCallRecord) (tc : DeltaToolCall) : ToolCallRecord :=
  let r1 := if optTruthy tc.id then { r with id := tc.id } else r
  let r2 := if optTruthy tc.type then { r1 with type := tc.type } else r1
  match tc.function with
  | none => r2
  | some f =>
    let r3 := if optTruthy f.name then { r2 with name := f.name.getD "" } else r2
    if optTruthy f.arguments then
      { r3 with arguments := r3.arguments ++ f.arguments.getD "" }
    else r3

/-- Lines 109-126 for one fragment: insert a fresh record if the index is
new (Python dict insertion order: appended at the end), then update the
record stored at the fragment's index. -/
def applyFragment (acc : List (Nat × ToolCallRecord)) (tc : DeltaToolCall) :
    List (Nat × ToolCallRecord) :=
  let acc1 :=
    match acc.lookup tc.index with
    | none => acc ++ [(tc.index, initRecord tc)]
    | some _ => acc
  acc1.map (fun p => if p.1 = tc.index then (p.1, updRecord p.2 tc) else p)

/-- The contribution of one fragment to the accumulated `arguments` string
(empty when the fragment has no truthy `function.arguments`). -/
def argFragment (tc : DeltaToolCall) : String :=
  match tc.function with
  | some f => if optTruthy f.arguments then f.arguments.getD "" else ""
  | none => ""

/-- The loop state of `chat_completion` (lines 71-73). -/
structure LoopState where
  accumulated_tool_calls : List (Nat × ToolCallRecord)
  in_tool_call : Bool
  final_text : String
deriving DecidableEq, Repr

def initLoopState : LoopState := ⟨[], false, ""⟩

/-- Lines 129-131: append truthy chunk content to `final_text`. -/
def textStep (s : String) (ch : Chunk) : String :=
  if optTruthy ch.content then s ++ ch.content.getD "" else s

/-- One iteration of the `async for` loop (lines 100-131): with tool support,
a chunk with a non-empty `tool_calls` list sets `in_tool_call`, merges every
fragment and `continue`s (its text is skipped); otherwise the chunk's text
content is accumulated. -/
def stepChunk (support_tools : Bool) (st : LoopState) (ch : Chunk) : LoopState :=
  if support_tools && !ch.tool_calls.isEmpty then
    { st with
      accumulated_tool_calls := ch.tool_calls.foldl applyFragment st.accumulated_tool_calls,
      in_tool_call := true }
  else
    { st with final_text := textStep st.final_text ch }

/-- The whole `async for` loop over the consumed chunks. -/
def runLoop (support_tools : Bool) (chunks : List Chunk) : LoopState :=
  chunks.foldl (stepChunk support_tools) initLoopState

/-- The accumulated text of a pure text-delta stream (lines 129-131 alone). -/
def textOnly (chunks : List Chunk) : String :=
  chunks.foldl textStep ""

/-- A value yielded by `chat_completion`: a string, or the list of complete
tool-call records (`ToolCallObject.from_dict` is a plain constructor from
the accumulated dict and is modelled as the record itself). -/
inductive Yielded where
  | text (s : String)
  | tool_calls (l : List ToolCallRecord)
deriving DecidableEq, Repr

/-- Lines 133-142: emit the accumulated records when `in_tool_call` is set
and the dict is non-empty, the accumulated text otherwise. -/
def finalizeResult (st : LoopState) : Yielded :=
  if st.in_tool_call && !st.accumulated_tool_calls.isEmpty then
    Yielded.tool_calls (st.accumulated_tool_calls.map Prod.snd)
  else
    Yielded.text st.final_text

/-- How the consumed stream terminated: normal end, or one of the handled
exception classes (lines 144-158).  `apiError` carries `str(e)`. -/
inductive Terminal where
  | normalEnd
  | connectionError
  | rateLimitError
  | apiError (msg : List Char)

/-- The tool schemas passed by the caller (`NOT_GIVEN` is `none`); their
precise shape is irrelevant here. -/
abbrev ToolsList := List String

/-- Line 85: `available_tools = tools if self.support_tools else NOT_GIVEN`. -/
def availableTools (support_tools : Bool) (tools : Option ToolsList) : Option ToolsList :=
  if support_tools then tools else none

/-- Substring test used at line 153 (`"does not support tools" in str(e)`). -/
def containsSub (pat : List Char) : List Char → Bool
  | [] => pat.isEmpty
  | c :: rest => pat.isPrefixOf (c :: rest) || containsSub pat rest

def toolsUnsupportedPat : List Char := "does not support tools".toList

/-- The observable outcome of one `chat_completion` call. -/
structure CallResult where
  yields : List Yielded
  support_tools : Bool
  requestedTools : Option ToolsList
deriving DecidableEq, Repr

/-- `chat_completion` (lines 60-162).  The `finally` block only closes the
HTTP stream and is invisible here. -/
def chat_completion (support_tools : Bool) (tools : Option ToolsList)
    (chunks : List Chunk) (t : Terminal) : CallResult :=
  let req := availableTools support_tools tools
  match t with
  | Terminal.normalEnd =>
    { yields := [finalizeResult (runLoop support_tools chunks)],
      support_tools := support_tools, requestedTools := req }
  | Terminal.connectionError =>
    { yields := [Yielded.text "Error calling the chat endpoint: Connection error."],
      support_tools := support_tools, requestedTools := req }
  | Terminal.rateLimitError =>
    { yields := [Yielded.text "Error calling the chat endpoint: Rate limit exceeded. Please try again later."],
      support_tools := support_tools, requestedTools := req }
  | Terminal.apiError msg =>
    if containsSub toolsUnsupportedPat msg then
      { yields := [Yielded.text "__API_NOT_SUPPORT_TOOLS__"],
        support_tools := false, requestedTools := req }
    else
      { yields := [Yielded.text "Error calling the chat endpoint: Error occurred while generating response."],
        support_tools := support_tools, requestedTools := req }

/-! ## TurnController: `process_single_conversation`
(single_conversation.py, lines 41-160)

The coroutine is modelled as a computation in an error+writer monad:
a result (`Except`: normal value, raised error, or cancellation — Python's
`asyncio.CancelledError` is *not* an `Exception` subclass, so `except
Exception` cannot catch it) together with the trace of externally visible
events in order.  External collaborators (websocket, ASR, agent stream, TTS
manager, persistence) are abstracted by an `Env` record giving the outcome
of each awaited step; the agent stream is the list of items it produced
before completing or raising. -/

/-- A raised signal: cancellation, or an ordinary exception with message. -/
inductive Exc where
  | cancelled
  | err (msg : String)
deriving DecidableEq, Repr

/-- Externally visible effects, in order of occurrence. -/
inductive Event where
  | convStart
  | toolStatus
  | errorEvent (msg : String)
  | speak (text : String)
  | synthComplete
  | turnEnd
  | storeHuman (text : String)
  | storeAI (text : String)
  | cleanupRun
deriving DecidableEq, Repr

/-- A computation: its outcome and the events it emitted. -/
def Comp (α : Type) : Type := Except Exc α × List Event

def pureC {α : Type} (a : α) : Comp α := (Except.ok a, [])

/-- Sequencing: on an exception the rest of the body is skipped but the
events already emitted remain. -/
def bindC {α β : Type} (x : Comp α) (f : α → Comp β) : Comp β :=
  match x with
  | (Except.ok a, evs) => ((f a).1, evs ++ (f a).2)
  | (Except.error e, evs) => (Except.error e, evs)

def emit (e : Event) : Comp Unit := (Except.ok (), [e])

def liftOutcome {α : Type} (o : Except Exc α) : Comp α := (o, [])

/-- An awaited send with a given outcome: on success the event is visible,
on a raise nothing is emitted. -/
def sendStage (o : Except Exc Unit) (ev : Event) : Comp Unit :=
  match o with
  | Except.ok _ => (Except.ok (), [ev])
  | Except.error e => (Except.error e, [])

/-- `try ... except Exception as e: handler(str(e))`: catches `err`, never
`cancelled` (CancelledError derives from BaseException since Python 3.8). -/
def tryCatchErr {α : Type} (body : Comp α) (handler : String → Comp α) : Comp α :=
  match body with
  | (Except.error (Exc.err m), evs) => ((handler m).1, evs ++ (handler m).2)
  | other => other

/-- `try ... finally: cleanup()` where the cleanup itself does not raise:
the body's outcome is preserved and the cleanup effect always happens last.
The source's `except asyncio.CancelledError: raise` only logs and re-raises,
which is the identity on outcomes. -/
def tryFinallyEmit {α : Type} (body : Comp α) (fin : Event) : Comp α :=
  (body.1, body.2 ++ [fin])

/-- An item produced by `context.agent_engine.chat` (lines 86-103):
a `tool_call_status` dict, a `SentenceOutput` (iterated to its `tts_text`
pieces), an `AudioOutput` (iterated to its transcripts), or anything else
(logged and skipped). -/
inductive StreamItem where
  | toolStatusItem
  | sentence (texts : List String)
  | audio (transcripts : List String)
  | other
deriving DecidableEq, Repr

/-- The text an item contributes to `full_response` (lines 93-100). -/
def itemText : StreamItem → String
  | StreamItem.sentence ts => String.join ts
  | StreamItem.audio ts => String.join ts
  | _ => ""

/-- `full_response` after draining the given items. -/
def fullResponseOf (items : List StreamItem) : String :=
  items.foldl (fun s it => s ++ itemText it) ""

/-- The client events the drain loop itself sends (lines 88-90: a
`tool_call_status` item is forwarded immediately). -/
def itemEvents : StreamItem → List Event
  | StreamItem.toolStatusItem => [Event.toolStatus]
  | _ => []

def drainEvents : List StreamItem → List Event
  | [] => []
  | it :: rest => itemEvents it ++ drainEvents rest

/-- Outcomes of the abstracted collaborators for one turn.  `drainItems` is
the prefix of agent output consumed before the stream completed
(`drainExc = none`) or raised (`drainExc = some e`). -/
structure Env where
  startOutcome : Except Exc Unit
  inputOutcome : Except Exc String
  historyUid : Bool
  skipHistory : Bool
  drainItems : List StreamItem
  drainExc : Option Exc
  speakOutcome : Except Exc Unit
  hasTasks : Bool
  gatherOutcome : Except Exc Unit
  finalizeOutcome : Except Exc Unit

/-- The inner `try` of lines 84-107: drain the agent stream; an `Exception`
is caught, reported as an error event, and the accumulated text survives;
a cancellation propagates. -/
def drainStage (env : Env) : Comp String :=
  tryCatchErr
    ((match env.drainExc with
      | some e => Except.error e
      | none => Except.ok (fullResponseOf env.drainItems)),
     drainEvents env.drainItems)
    (fun m => (Except.ok (fullResponseOf env.drainItems), [Event.errorEvent m]))

/-- The body of the outer `try` (lines 54-153), stage by stage in source
order.  `store_message` is modelled as a non-raising append to persistence. -/
def turnBody (env : Env) : Comp String :=
  bindC (sendStage env.startOutcome Event.convStart) (fun _ =>
  bindC (liftOutcome env.inputOutcome) (fun inputText =>
  bindC (if env.historyUid && !env.skipHistory then emit (Event.storeHuman inputText)
         else pureC ()) (fun _ =>
  bindC (drainStage env) (fun full =>
  let cleaned := clean_response full
  bindC (if cleaned.isEmpty then pureC ()
         else sendStage env.speakOutcome (Event.speak cleaned)) (fun _ =>
  bindC (if env.hasTasks then
           bindC (liftOutcome env.gatherOutcome) (fun _ => emit Event.synthComplete)
         else pureC ()) (fun _ =>
  bindC (sendStage env.finalizeOutcome Event.turnEnd) (fun _ =>
  bindC (if env.historyUid && !cleaned.isEmpty then emit (Event.storeAI cleaned)
         else pureC ()) (fun _ =>
  pureC cleaned))))))))

/-- `process_single_conversation` (lines 41-160): the body wrapped in
`except CancelledError: raise` (identity on outcomes) and
`finally: cleanup_conversation(...)`. -/
def process_single_conversation (env : Env) : Comp String :=
  tryFinallyEmit (turnBody env) Event.cleanupRun

/-! ### Spec-side observers used to state the merge-rule claims -/

/-- Concatenation of a list of strings, in order. -/
def concatAll : List String → String
  | [] => ""
  | s :: rest => s ++ concatAll rest

/-- The effect of one fragment on a stored `id`: a truthy value replaces the
current one, otherwise the current value is kept. -/
def idUpd (cur : Option String) (tc : DeltaToolCall) : Option String :=
  if optTruthy tc.id then tc.id else cur

/-- The effect of one fragment on a stored `type`. -/
def typeUpd (cur : Option String) (tc : DeltaToolCall) : Option String :=
  if optTruthy tc.type then tc.type else cur

/-- The effect of one fragment on a stored `function.name`. -/
def nameUpd (cur : String) (tc : DeltaToolCall) : String :=
  match tc.function with
  | some f => if optTruthy f.name then f.name.getD "" else cur
  | none => cur

/-! ## Lemmas about the normalizer -/

example : clean_response "Hello[annotation]world" = "Hello world" := by decide
example : clean_response "  a   b  " = "a b" := by decide
example : clean_response "a,b" = "a, b" := by decide

theorem punctSpaced_tail {c : Char} {cs : List Char} (h : punctSpaced (c :: cs) = true) :
    punctSpaced cs = true := by
  simp [punctSpaced, Bool.and_eq_true] at h
  exact h.2

theorem punctSpaced_head {c : Char} {cs : List Char} (h : punctSpaced (c :: cs) = true)
    (hp : isPunct c = true) : isSpace (headOr cs ' ') = true := by
  simp [punctSpaced, hp, Bool.and_eq_true] at h
  exact h.1

theorem punctSpaced_cons {c : Char} {t : List Char}
    (h : isPunct c = false ∨ isSpace (headOr t ' ') = true)
    (ht : punctSpaced t = true) : punctSpaced (c :: t) = true := by
  rcases h with h | h <;> simp [punctSpaced, h, ht]

theorem wsNormal_tail {c : Char} {cs : List Char} (h : wsNormal (c :: cs) = true) :
    wsNormal cs = true := by
  simp [wsNormal, Bool.and_eq_true] at h
  exact h.2

theorem wsNormal_head {c : Char} {cs : List Char} (h : wsNormal (c :: cs) = true)
    (hs : isSpace c = true) : c = ' ' ∧ isSpace (headOr cs 'x') = false := by
  simp [wsNormal, hs, Bool.and_eq_true] at h
  exact ⟨h.1.1, h.1.2⟩

theorem wsNormal_cons {c : Char} {t : List Char}
    (h : isSpace c = false ∨ (c = ' ' ∧ isSpace (headOr t 'x') = false))
    (ht : wsNormal t = true) : wsNormal (c :: t) = true := by
  rcases h with h | ⟨h1, h2⟩ <;> simp [wsNormal, *]

theorem noAdjPunct_tail {c : Char} {cs : List Char} (h : noAdjPunct (c :: cs) = true) :
    noAdjPunct cs = true := by
  simp [noAdjPunct, Bool.and_eq_true] at h
  exact h.2

theorem noAdjPunct_head {c d : Char} {cs : List Char}
    (h : noAdjPunct (c :: d :: cs) = true) (hp : isPunct c = true) : isPunct d = false := by
  simp [noAdjPunct, hp, Bool.and_eq_true] at h
  exact h.1

theorem dropWhile_isSpace_headD (l : List Char) :
    isSpace (headOr (l.dropWhile isSpace) 'x') = false := by
  induction l with
  | nil => decide
  | cons c cs ih =>
    by_cases h : isSpace c
    · simpa [List.dropWhile_cons, h] using ih
    · simp [List.dropWhile_cons, h, headOr]

theorem dropWhile_isSpace_id {l : List Char} (h : isSpace (headOr l 'x') = false) :
    l.dropWhile isSpace = l := by
  cases l with
  | nil => rfl
  | cons c cs =>
    simp [headOr] at h
    simp [List.dropWhile_cons, h]

theorem punctSpaced_dropWhile : ∀ l : List Char, punctSpaced l = true →
    punctSpaced (l.dropWhile isSpace) = true
  | [], h => h
  | c :: cs, h => by
    by_cases hs : isSpace c
    · simpa [List.dropWhile_cons, hs] using punctSpaced_dropWhile cs (punctSpaced_tail h)
    · simpa [List.dropWhile_cons, hs] using h

theorem wsNormal_dropWhile : ∀ l : List Char, wsNormal l = true →
    wsNormal (l.dropWhile isSpace) = true
  | [], h => h
  | c :: cs, h => by
    by_cases hs : isSpace c
    · simpa [List.dropWhile_cons, hs] using wsNormal_dropWhile cs (wsNormal_tail h)
    · simpa [List.dropWhile_cons, hs] using h

theorem spacePunct_headOr (a : Char) : ∀ l : List Char, headOr (spacePunct l) a = headOr l a
  | [] => rfl
  | [_] => rfl
  | c :: d :: rest => by
    by_cases h : isPunct c && !isSpace d <;> simp [spacePunct, h, headOr]

theorem punctSpaced_spacePunct : ∀ l : List Char, noAdjPunct l = true →
    punctSpaced (spacePunct l) = true
  | [], _ => by decide
  | [c], _ => by
    simp [spacePunct, punctSpaced, headOr]
    exact Or.inr (by decide)
  | c :: d :: rest, h => by
    have hd : noAdjPunct (d :: rest) = true := noAdjPunct_tail h
    have hr : noAdjPunct rest = true := noAdjPunct_tail hd
    by_cases hcd : isPunct c && !isSpace d
    · have hcp : isPunct c = true := by
        have := hcd
        simp [Bool.and_eq_true] at this
        exact this.1
      have h1 : punctSpaced (spacePunct rest) = true := punctSpaced_spacePunct rest hr
      have hdp : isPunct d = false := noAdjPunct_head h hcp
      have h2 : punctSpaced (d :: spacePunct rest) = true :=
        punctSpaced_cons (Or.inl hdp) h1
      have h3 : punctSpaced (' ' :: d :: spacePunct rest) = true :=
        punctSpaced_cons (Or.inl (by decide)) h2
      have h4 : punctSpaced (c :: ' ' :: d :: spacePunct rest) = true :=
        punctSpaced_cons (Or.inr (by simp [headOr]; decide)) h3
      simpa [spacePunct, hcd] using h4
    · have h1 : punctSpaced (spacePunct (d :: rest)) = true := punctSpaced_spacePunct (d :: rest) hd
      have hcond : isPunct c = false ∨ isSpace (headOr (spacePunct (d :: rest)) ' ') = true := by
        cases hc : isPunct c
        · exact Or.inl rfl
        · right
          rw [spacePunct_headOr]
          simp [hc, headOr] at hcd ⊢
          exact hcd
      have := punctSpaced_cons hcond h1
      simpa [spacePunct, hcd] using this

theorem spacePunct_id : ∀ l : List Char, punctSpaced l = true → spacePunct l = l
  | [], _ => rfl
  | [_], _ => rfl
  | c :: d :: rest, h => by
    have hcd : (isPunct c && !isSpace d) = false := by
      cases hc : isPunct c
      · simp
      · have := punctSpaced_head h hc
        simp [headOr] at this
        simp [this]
    have ht : spacePunct (d :: rest) = d :: rest :=
      spacePunct_id (d :: rest) (punctSpaced_tail h)
    simp [spacePunct, hcd, ht]

theorem mem_spacePunct {x : Char} : ∀ l : List Char, x ∈ spacePunct l → x ∈ l ∨ x = ' '
  | [], hx => by simp [spacePunct] at hx
  | [c], hx => by simp [spacePunct] at hx; simp [hx]
  | c :: d :: rest, hx => by
    by_cases hcd : isPunct c && !isSpace d
    · simp [spacePunct, hcd] at hx
      rcases hx with rfl | rfl | rfl | hx
      · simp
      · simp
      · simp
      · rcases mem_spacePunct rest hx with h | h
        · simp [h]
        · simp [h]
    · simp [spacePunct, hcd] at hx
      rcases hx with rfl | hx
      · simp
      · rcases mem_spacePunct (d :: rest) hx with h | h
        · simp at h
          rcases h with rfl | h
          · simp
          · simp [h]
        · simp [h]

theorem collapseAux_true_headOr : ∀ l : List Char, isSpace (headOr (collapseAux true l) 'x') = false
  | [] => by decide
  | c :: cs => by
    by_cases h : isSpace c
    · simpa [collapseAux, h] using collapseAux_true_headOr cs
    · simp [collapseAux, h, headOr]

theorem collapseAux_false_headOr_space : ∀ l : List Char, isSpace (headOr l ' ') = true →
    isSpace (headOr (collapseAux false l) ' ') = true
  | [], _ => by decide
  | c :: cs, h => by
    simp [headOr] at h
    simp [collapseAux, h, headOr]
    decide

theorem wsNormal_collapseAux : ∀ (prev : Bool) (l : List Char),
    wsNormal (collapseAux prev l) = true
  | prev, [] => by cases prev <;> decide
  | prev, c :: cs => by
    by_cases h : isSpace c
    · cases prev
      · have h1 := wsNormal_collapseAux true cs
        have h2 := collapseAux_true_headOr cs
        simp [collapseAux, h, wsNormal, h1, h2]
      · simpa [collapseAux, h] using wsNormal_collapseAux true cs
    · have h1 := wsNormal_collapseAux false cs
      simp [collapseAux, h, wsNormal, h1]

theorem collapseAux_id : ∀ l : List Char, wsNormal l = true →
    collapseAux false l = l ∧ (isSpace (headOr l 'x') = false → collapseAux true l = l)
  | [], _ => ⟨rfl, fun _ => rfl⟩
  | c :: cs, h => by
    have hcs : wsNormal cs = true := wsNormal_tail h
    have ih := collapseAux_id cs hcs
    constructor
    · by_cases hs : isSpace c
      · obtain ⟨hc', hh⟩ := wsNormal_head h hs
        subst hc'
        simp [collapseAux, hs, ih.2 hh]
      · simp [collapseAux, hs, ih.1]
    · intro hh
      simp [headOr] at hh
      simp [collapseAux, hh, ih.1]

theorem punctSpaced_collapseAux : ∀ (prev : Bool) (l : List Char), punctSpaced l = true →
    punctSpaced (collapseAux prev l) = true
  | prev, [], _ => by cases prev <;> decide
  | prev, c :: cs, h => by
    have hcs := punctSpaced_tail h
    by_cases hs : isSpace c
    · cases prev
      · have := punctSpaced_cons (Or.inl (by decide : isPunct ' ' = false))
          (punctSpaced_collapseAux true cs hcs)
        simpa [collapseAux, hs] using this
      · simpa [collapseAux, hs] using punctSpaced_collapseAux true cs hcs
    · have hcond : isPunct c = false ∨ isSpace (headOr (collapseAux false cs) ' ') = true := by
        cases hc : isPunct c
        · exact Or.inl rfl
        · exact Or.inr (collapseAux_false_headOr_space cs (punctSpaced_head h hc))
      have := punctSpaced_cons hcond (punctSpaced_collapseAux false cs hcs)
      simpa [collapseAux, hs] using this

theorem mem_collapseAux {x : Char} : ∀ (prev : Bool) (l : List Char),
    x ∈ collapseAux prev l → x ∈ l ∨ x = ' '
  | _, [], hx => by simp [collapseAux] at hx
  | prev, c :: cs, hx => by
    by_cases h : isSpace c
    · cases prev
      · simp [collapseAux, h] at hx
        rcases hx with rfl | hx
        · simp
        · rcases mem_collapseAux true cs hx with h' | h' <;> simp [h']
      · simp [collapseAux, h] at hx
        rcases mem_collapseAux true cs hx with h' | h' <;> simp [h']
    · simp [collapseAux, h] at hx
      rcases hx with rfl | hx
      · simp
      · rcases mem_collapseAux false cs hx with h' | h' <;> simp [h']

theorem mem_dropTrailing {x : Char} : ∀ l : List Char, x ∈ dropTrailing l → x ∈ l
  | [], hx => by simp [dropTrailing] at hx
  | c :: cs, hx => by
    cases hdt : dropTrailing cs with
    | nil =>
      rw [dropTrailing, hdt] at hx
      by_cases hs : isSpace c
      · simp [hs] at hx
      · simp [hs] at hx
        simp [hx]
    | cons d ds =>
      rw [dropTrailing, hdt] at hx
      simp at hx
      rcases hx with rfl | hx
      · simp
      · have := mem_dropTrailing cs (show x ∈ dropTrailing cs by
          rw [hdt]; exact List.mem_cons.mpr hx)
        simp [this]

theorem noTrailSpace_dropTrailing : ∀ l : List Char, noTrailSpace (dropTrailing l) = true
  | [] => by decide
  | c :: cs => by
    cases hdt : dropTrailing cs with
    | nil =>
      rw [dropTrailing, hdt]
      by_cases hs : isSpace c <;> simp [hs, noTrailSpace]
    | cons d ds =>
      have ih := noTrailSpace_dropTrailing cs
      rw [hdt] at ih
      rw [dropTrailing, hdt]
      simpa [noTrailSpace] using ih

theorem dropTrailing_headOr (a : Char) : ∀ l : List Char, dropTrailing l ≠ [] →
    headOr (dropTrailing l) a = headOr l a
  | [], h => by simp [dropTrailing] at h
  | c :: cs, h => by
    cases hdt : dropTrailing cs with
    | nil =>
      by_cases hs : isSpace c
      · rw [dropTrailing, hdt] at h
        simp [hs] at h
      · rw [dropTrailing, hdt]
        simp [hs, headOr]
    | cons d ds =>
      rw [dropTrailing, hdt]
      simp [headOr]

theorem dropTrailing_id : ∀ l : List Char, noTrailSpace l = true → dropTrailing l = l
  | [], _ => rfl
  | [c], h => by
    simp [noTrailSpace] at h
    simp [dropTrailing, h]
  | c :: d :: ds, h => by
    have ih : dropTrailing (d :: ds) = d :: ds :=
      dropTrailing_id (d :: ds) (by simpa [noTrailSpace] using h)
    rw [dropTrailing, ih]

theorem punctSpaced_dropTrailing : ∀ l : List Char, punctSpaced l = true →
    punctSpaced (dropTrailing l) = true
  | [], _ => by decide
  | c :: cs, h => by
    have hcs := punctSpaced_tail h
    cases hdt : dropTrailing cs with
    | nil =>
      rw [dropTrailing, hdt]
      by_cases hs : isSpace c
      · simp [hs, punctSpaced]
      · simp [hs, punctSpaced, headOr]
        exact Or.inr (by decide)
    | cons d ds =>
      have ih := punctSpaced_dropTrailing cs hcs
      rw [hdt] at ih
      have hh : headOr (d :: ds) ' ' = headOr cs ' ' := by
        have := dropTrailing_headOr ' ' cs (by rw [hdt]; simp)
        rwa [hdt] at this
      have hcond : isPunct c = false ∨ isSpace (headOr (d :: ds) ' ') = true := by
        cases hc : isPunct c
        · exact Or.inl rfl
        · right
          rw [hh]
          exact punctSpaced_head h hc
      rw [dropTrailing, hdt]
      exact punctSpaced_cons hcond ih

theorem wsNormal_dropTrailing : ∀ l : List Char, wsNormal l = true →
    wsNormal (dropTrailing l) = true
  | [], _ => by decide
  | c :: cs, h => by
    have hcs := wsNormal_tail h
    cases hdt : dropTrailing cs with
    | nil =>
      rw [dropTrailing, hdt]
      by_cases hs : isSpace c
      · simp [hs, wsNormal]
      · simp [hs, wsNormal]
    | cons d ds =>
      have ih := wsNormal_dropTrailing cs hcs
      rw [hdt] at ih
      have hh : headOr (d :: ds) 'x' = headOr cs 'x' := by
        have := dropTrailing_headOr 'x' cs (by rw [hdt]; simp)
        rwa [hdt] at this
      rw [dropTrailing, hdt]
      by_cases hs : isSpace c
      · obtain ⟨hc', hns⟩ := wsNormal_head h hs
        exact wsNormal_cons (Or.inr ⟨hc', by rw [hh]; exact hns⟩) ih
      · exact wsNormal_cons (Or.inl (by simpa using hs)) ih

theorem matchAnnotation_none {l : List Char} (h : '[' ∉ l) : matchAnnotation l = none := by
  unfold matchAnnotation
  cases hd : l.dropWhile isSpace with
  | nil => rfl
  | cons c body =>
    have hmem : c ∈ l := (List.dropWhile_sublist isSpace (l := l)).subset (by rw [hd]; simp)
    by_cases hc : c = '['
    · subst hc
      exact absurd hmem h
    · simp [hc]

theorem removeAnnotationsGo_id : ∀ (fuel : Nat) (l : List Char), '[' ∉ l →
    removeAnnotationsGo fuel l = l
  | 0, _, _ => rfl
  | _ + 1, [], _ => rfl
  | fuel + 1, c :: cs, h => by
    rw [removeAnnotationsGo, matchAnnotation_none h]
    rw [removeAnnotationsGo_id fuel cs (fun hx => h (List.mem_cons_of_mem c hx))]

theorem removeAnnotations_id {l : List Char} (h : '[' ∉ l) : removeAnnotations l = l :=
  removeAnnotationsGo_id l.length l h

/-- One pass of `cleanL` on a bracket-free input with no adjacent punctuation
reaches a fixed point of every stage, so a second pass is the identity. -/
theorem cleanL_fix {l : List Char} (hb : '[' ∉ l) (hp : noAdjPunct l = true) :
    cleanL (cleanL l) = cleanL l := by
  have h0 : cleanL l = stripBoth (collapseWS (spacePunct l)) := by
    rw [cleanL, removeAnnotations_id hb]
  -- properties of the intermediate collapse output
  have hps1 : punctSpaced (spacePunct l) = true := punctSpaced_spacePunct l hp
  have hps2 : punctSpaced (collapseWS (spacePunct l)) = true :=
    punctSpaced_collapseAux false _ hps1
  have hws2 : wsNormal (collapseWS (spacePunct l)) = true := wsNormal_collapseAux false _
  -- properties of y = cleanL l
  have hpsy : punctSpaced (cleanL l) = true := by
    rw [h0, stripBoth]
    exact punctSpaced_dropTrailing _ (punctSpaced_dropWhile _ hps2)
  have hwsy : wsNormal (cleanL l) = true := by
    rw [h0, stripBoth]
    exact wsNormal_dropTrailing _ (wsNormal_dropWhile _ hws2)
  have hheady : isSpace (headOr (cleanL l) 'x') = false := by
    rw [h0, stripBoth]
    cases hdt : dropTrailing ((collapseWS (spacePunct l)).dropWhile isSpace) with
    | nil => decide
    | cons d ds =>
      rw [← hdt, dropTrailing_headOr 'x' _ (by rw [hdt]; simp)]
      exact dropWhile_isSpace_headD _
  have htraily : noTrailSpace (cleanL l) = true := by
    rw [h0, stripBoth]
    exact noTrailSpace_dropTrailing _
  have hbry : '[' ∉ cleanL l := by
    rw [h0, stripBoth]
    intro hmem
    have h1 := mem_dropTrailing _ hmem
    have h2 := (List.dropWhile_sublist isSpace).subset h1
    rcases mem_collapseAux false _ h2 with h3 | h3
    · rcases mem_spacePunct l h3 with h4 | h4
      · exact hb h4
      · exact absurd h4 (by decide)
    · exact absurd h3 (by decide)
  -- the second pass is the identity on y
  calc cleanL (cleanL l)
      = stripBoth (collapseWS (spacePunct (cleanL l))) := by
        rw [cleanL, removeAnnotations_id hbry]
    _ = stripBoth (collapseWS (cleanL l)) := by rw [spacePunct_id _ hpsy]
    _ = stripBoth (cleanL l) := by rw [collapseWS, (collapseAux_id _ hwsy).1]
    _ = cleanL l := by
        rw [stripBoth, dropWhile_isSpace_id hheady, dropTrailing_id _ htraily]

/-! ## Lemmas about the stream aggregator -/

theorem record_eq_of_fields {r s : ToolCallRecord} (h1 : r.index = s.index)
    (h2 : r.id = s.id) (h3 : r.type = s.type) (h4 : r.name = s.name)
    (h5 : r.arguments = s.arguments) : r = s := by
  cases r
  cases s
  simp_all

theorem updRecord_index (r : ToolCallRecord) (tc : DeltaToolCall) :
    (updRecord r tc).index = r.index := by
  unfold updRecord
  cases tc.function <;>
    [skip; rename_i f] <;>
    by_cases h1 : optTruthy tc.id <;> by_cases h2 : optTruthy tc.type <;>
    simp [h1, h2]
  all_goals by_cases h3 : optTruthy f.name <;> by_cases h4 : optTruthy f.arguments <;>
    simp [h3, h4]

theorem updRecord_id (r : ToolCallRecord) (tc : DeltaToolCall) :
    (updRecord r tc).id = idUpd r.id tc := by
  unfold updRecord idUpd
  cases tc.function <;>
    [skip; rename_i f] <;>
    by_cases h1 : optTruthy tc.id <;> by_cases h2 : optTruthy tc.type <;>
    simp [h1, h2]
  all_goals by_cases h3 : optTruthy f.name <;> by_cases h4 : optTruthy f.arguments <;>
    simp [h3, h4]

theorem updRecord_type (r : ToolCallRecord) (tc : DeltaToolCall) :
    (updRecord r tc).type = typeUpd r.type tc := by
  unfold updRecord typeUpd
  cases tc.function <;>
    [skip; rename_i f] <;>
    by_cases h1 : optTruthy tc.id <;> by_cases h2 : optTruthy tc.type <;>
    simp [h1, h2]
  all_goals by_cases h3 : optTruthy f.name <;> by_cases h4 : optTruthy f.arguments <;>
    simp [h3, h4]

theorem updRecord_name (r : ToolCallRecord) (tc : DeltaToolCall) :
    (updRecord r tc).name = nameUpd r.name tc := by
  unfold updRecord nameUpd
  cases tc.function <;>
    [skip; rename_i f] <;>
    by_cases h1 : optTruthy tc.id <;> by_cases h2 : optTruthy tc.type <;>
    simp [h1, h2]
  all_goals by_cases h3 : optTruthy f.name <;> by_cases h4 : optTruthy f.arguments <;>
    simp [h3, h4]

theorem updRecord_arguments (r : ToolCallRecord) (tc : DeltaToolCall) :
    (updRecord r tc).arguments = r.arguments ++ argFragment tc := by
  unfold updRecord argFragment
  cases tc.function <;>
    [skip; rename_i f] <;>
    by_cases h1 : optTruthy tc.id <;> by_cases h2 : optTruthy tc.type <;>
    simp [h1, h2]
  all_goals by_cases h3 : optTruthy f.name <;> by_cases h4 : optTruthy f.arguments <;>
    simp [h3, h4]

theorem foldl_updRecord_index : ∀ (fs : List DeltaToolCall) (r : ToolCallRecord),
    (List.foldl updRecord r fs).index = r.index
  | [], _ => rfl
  | tc :: rest, r => by
    rw [List.foldl_cons, foldl_updRecord_index rest, updRecord_index]

theorem foldl_updRecord_id : ∀ (fs : List DeltaToolCall) (r : ToolCallRecord),
    (List.foldl updRecord r fs).id = List.foldl idUpd r.id fs
  | [], _ => rfl
  | tc :: rest, r => by
    rw [List.foldl_cons, foldl_updRecord_id rest, updRecord_id, List.foldl_cons]

theorem foldl_updRecord_type : ∀ (fs : List DeltaToolCall) (r : ToolCallRecord),
    (List.foldl updRecord r fs).type = List.foldl typeUpd r.type fs
  | [], _ => rfl
  | tc :: rest, r => by
    rw [List.foldl_cons, foldl_updRecord_type rest, updRecord_type, List.foldl_cons]

theorem foldl_updRecord_name : ∀ (fs : List DeltaToolCall) (r : ToolCallRecord),
    (List.foldl updRecord r fs).name = List.foldl nameUpd r.name fs
  | [], _ => rfl
  | tc :: rest, r => by
    rw [List.foldl_cons, foldl_updRecord_name rest, updRecord_name, List.foldl_cons]

theorem foldl_updRecord_arguments : ∀ (fs : List DeltaToolCall) (r : ToolCallRecord),
    (List.foldl updRecord r fs).arguments = r.arguments ++ concatAll (fs.map argFragment)
  | [], r => by simp [concatAll]
  | tc :: rest, r => by
    rw [List.foldl_cons, foldl_updRecord_arguments rest, updRecord_arguments]
    simp [concatAll, String.append_assoc]

theorem concatAll_filter_ne_empty : ∀ l : List String,
    concatAll (l.filter (fun s => !s.isEmpty)) = concatAll l
  | [] => rfl
  | s :: rest => by
    by_cases h : s.isEmpty
    · have hs : s = "" := (String.isEmpty_iff s).mp h
      subst hs
      rw [List.filter_cons]
      rw [if_neg (by decide)]
      rw [concatAll_filter_ne_empty rest]
      show concatAll rest = concatAll ("" :: rest)
      rw [concatAll, String.empty_append]
    · rw [List.filter_cons]
      simp only [h, Bool.not_false, if_pos]
      rw [concatAll, concatAll, concatAll_filter_ne_empty rest]

theorem applyFragment_single (i : Nat) (r : ToolCallRecord) (tc : DeltaToolCall)
    (h : tc.index = i) : applyFragment [(i, r)] tc = [(i, updRecord r tc)] := by
  subst h
  simp [applyFragment, List.lookup]

theorem applyFragment_nil (tc : DeltaToolCall) :
    applyFragment [] tc = [(tc.index, updRecord (initRecord tc) tc)] := by
  simp [applyFragment, List.lookup]

theorem foldl_applyFragment_single : ∀ (fs : List DeltaToolCall) (i : Nat) (r : ToolCallRecord),
    (∀ tc ∈ fs, tc.index = i) →
    List.foldl applyFragment [(i, r)] fs = [(i, List.foldl updRecord r fs)]
  | [], _, _, _ => rfl
  | tc :: rest, i, r, h => by
    rw [List.foldl_cons, applyFragment_single i r tc (h tc (by simp)), List.foldl_cons]
    exact foldl_applyFragment_single rest i (updRecord r tc) (fun x hx => h x (by simp [hx]))

theorem foldl_stepChunk_textOnly : ∀ (chunks : List Chunk) (st : LoopState),
    (∀ ch ∈ chunks, ch.tool_calls = []) →
    List.foldl (stepChunk true) st chunks =
      ⟨st.accumulated_tool_calls, st.in_tool_call, List.foldl textStep st.final_text chunks⟩
  | [], st, _ => rfl
  | ch :: rest, st, h => by
    have hch : ch.tool_calls = [] := h ch (by simp)
    have hrest : ∀ c ∈ rest, c.tool_calls = [] := fun c hc => h c (by simp [hc])
    rw [List.foldl_cons, List.foldl_cons]
    have hstep : stepChunk true st ch = { st with final_text := textStep st.final_text ch } := by
      simp [stepChunk, hch]
    rw [hstep]
    exact foldl_stepChunk_textOnly rest _ hrest

theorem stepChunk_in_tool_call_mono (st : LoopState) (ch : Chunk)
    (h : st.in_tool_call = true) : (stepChunk true st ch).in_tool_call = true := by
  unfold stepChunk
  split <;> simp [h]

theorem foldl_stepChunk_in_tool_call_mono : ∀ (chunks : List Chunk) (st : LoopState),
    st.in_tool_call = true → (List.foldl (stepChunk true) st chunks).in_tool_call = true
  | [], _, h => h
  | ch :: rest, st, h => by
    rw [List.foldl_cons]
    exact foldl_stepChunk_in_tool_call_mono rest _ (stepChunk_in_tool_call_mono st ch h)

theorem foldl_stepChunk_sets_in_tool_call : ∀ (chunks : List Chunk) (st : LoopState),
    (∃ ch ∈ chunks, ch.tool_calls ≠ []) →
    (List.foldl (stepChunk true) st chunks).in_tool_call = true
  | [], _, h => by simp at h
  | ch :: rest, st, h => by
    rcases h with ⟨c, hc, hne⟩
    rw [List.foldl_cons]
    rcases List.mem_cons.mp hc with rfl | hmem
    · apply foldl_stepChunk_in_tool_call_mono
      simp [stepChunk, hne]
    · exact foldl_stepChunk_sets_in_tool_call rest _ ⟨c, hmem, hne⟩

/-! ## Lemmas about the turn-controller monad -/

theorem bindC_fst_ok {α β : Type} (x : Comp α) (f : α → Comp β) (a : α)
    (h : x.1 = Except.ok a) : (bindC x f).1 = (f a).1 := by
  obtain ⟨o, evs⟩ := x
  simp only at h
  subst h
  rfl

theorem bindC_fst_error {α β : Type} (x : Comp α) (f : α → Comp β) (e : Exc)
    (h : x.1 = Except.error e) : (bindC x f).1 = Except.error e := by
  obtain ⟨o, evs⟩ := x
  simp only at h
  subst h
  rfl

theorem mem_bindC_left {α β : Type} {ev : Event} (x : Comp α) (f : α → Comp β)
    (h : ev ∈ x.2) : ev ∈ (bindC x f).2 := by
  obtain ⟨o, evs⟩ := x
  cases o with
  | ok a => exact List.mem_append_left _ h
  | error e => exact h

theorem mem_bindC_right {α β : Type} {ev : Event} (x : Comp α) (f : α → Comp β) (a : α)
    (hx : x.1 = Except.ok a) (h : ev ∈ (f a).2) : ev ∈ (bindC x f).2 := by
  obtain ⟨o, evs⟩ := x
  simp only at hx
  subst hx
  exact List.mem_append_right _ h

theorem mem_bindC_elim {α β : Type} {ev : Event} (x : Comp α) (f : α → Comp β)
    (h : ev ∈ (bindC x f).2) : ev ∈ x.2 ∨ ∃ a, ev ∈ (f a).2 := by
  obtain ⟨o, evs⟩ := x
  cases o with
  | ok a =>
    rcases List.mem_append.mp h with h' | h'
    · exact Or.inl h'
    · exact Or.inr ⟨a, h'⟩
  | error e => exact Or.inl h

theorem drainEvents_eq_toolStatus {ev : Event} : ∀ items : List StreamItem,
    ev ∈ drainEvents items → ev = Event.toolStatus
  | [], h => by simp [drainEvents] at h
  | it :: rest, h => by
    rw [drainEvents] at h
    rcases List.mem_append.mp h with h' | h'
    · cases it <;> simp [itemEvents] at h'
      exact h'
    · exact drainEvents_eq_toolStatus rest h'

theorem mem_drainStage {ev : Event} (env : Env) (h : ev ∈ (drainStage env).2) :
    ev = Event.toolStatus ∨ ∃ m, ev = Event.errorEvent m := by
  unfold drainStage tryCatchErr at h
  cases henv : env.drainExc with
  | none =>
    rw [henv] at h
    simp only at h
    exact Or.inl (drainEvents_eq_toolStatus _ h)
  | some e =>
    cases e with
    | cancelled =>
      rw [henv] at h
      simp only at h
      exact Or.inl (drainEvents_eq_toolStatus _ h)
    | err m =>
      rw [henv] at h
      simp only at h
      rcases List.mem_append.mp h with h' | h'
      · exact Or.inl (drainEvents_eq_toolStatus _ h')
      · simp at h'
        exact Or.inr ⟨m, h'⟩

theorem cleanup_not_in_turnBody (env : Env) : Event.cleanupRun ∉ (turnBody env).2 := by
  intro hmem
  unfold turnBody at hmem
  rcases mem_bindC_elim _ _ hmem with h | ⟨a, h⟩
  · unfold sendStage at h
    cases ho : env.startOutcome <;> simp [ho] at h
  rcases mem_bindC_elim _ _ h with h | ⟨t, h⟩
  · simp [liftOutcome] at h
  rcases mem_bindC_elim _ _ h with h | ⟨b, h⟩
  · split at h <;> simp [emit, pureC] at h
  rcases mem_bindC_elim _ _ h with h | ⟨full, h⟩
  · rcases mem_drainStage env h with h' | ⟨m, h'⟩ <;> simp at h'
  rcases mem_bindC_elim _ _ h with h | ⟨c, h⟩
  · split at h
    · simp [pureC] at h
    · unfold sendStage at h
      cases ho : env.speakOutcome <;> simp [ho] at h
  rcases mem_bindC_elim _ _ h with h | ⟨d, h⟩
  · split at h
    · rcases mem_bindC_elim _ _ h with h' | ⟨e, h'⟩
      · simp [liftOutcome] at h'
      · simp [emit] at h'
    · simp [pureC] at h
  rcases mem_bindC_elim _ _ h with h | ⟨e, h⟩
  · unfold sendStage at h
    cases ho : env.finalizeOutcome <;> simp [ho] at h
  rcases mem_bindC_elim _ _ h with h | ⟨g, h⟩
  · split at h <;> simp [emit, pureC] at h
  · simp [pureC] at h

theorem getLast_append_singleton {α : Type} (l : List α) (a : α) :
    (l ++ [a]).getLast? = some a := by
  rw [List.getLast?_append_cons]
  rfl

/-! ## The claims -/

/-- C1: with tool support enabled, a stream of only text deltas makes
`chat_completion` yield the accumulated text, and a stream with at least one
tool-call fragment (and at least one accumulated record) makes it yield
exactly the accumulated complete tool-call records, regardless of any
interleaved text deltas. -/
theorem chat_completion_final_result (tools : Option ToolsList) (chunks : List Chunk) :
    ((∀ ch ∈ chunks, ch.tool_calls = []) →
      (chat_completion true tools chunks Terminal.normalEnd).yields
        = [Yielded.text (textOnly chunks)])
    ∧ ((∃ ch ∈ chunks, ch.tool_calls ≠ []) →
      (runLoop true chunks).accumulated_tool_calls ≠ [] →
      (chat_completion true tools chunks Terminal.normalEnd).yields
        = [Yielded.tool_calls ((runLoop true chunks).accumulated_tool_calls.map Prod.snd)]) := by
  constructor
  · intro h
    show [finalizeResult (runLoop true chunks)] = _
    rw [runLoop, foldl_stepChunk_textOnly chunks initLoopState h]
    simp [finalizeResult, initLoopState, textOnly]
  · intro hex hne
    have hflag : (runLoop true chunks).in_tool_call = true :=
      foldl_stepChunk_sets_in_tool_call chunks initLoopState hex
    have hne' : (runLoop true chunks).accumulated_tool_calls.isEmpty = false := by
      cases hacc : (runLoop true chunks).accumulated_tool_calls
      · exact absurd hacc hne
      · rfl
    show [finalizeResult (runLoop true chunks)] = _
    simp [finalizeResult, hflag, hne']

theorem chat_completion_final_result_witness :
    ((chat_completion true none [⟨[], some "Hel"⟩, ⟨[], some "lo"⟩] Terminal.normalEnd).yields
        = [Yielded.text (textOnly [⟨[], some "Hel"⟩, ⟨[], some "lo"⟩])])
    ∧ ((chat_completion true none
          [⟨[⟨0, some "call_1", some "function", some ⟨some "f", some "x"⟩⟩], some "skipped"⟩]
          Terminal.normalEnd).yields
        = [Yielded.tool_calls
            ((runLoop true
                [⟨[⟨0, some "call_1", some "function", some ⟨some "f", some "x"⟩⟩], some "skipped"⟩]).accumulated_tool_calls.map
              Prod.snd)]) :=
  ⟨(chat_completion_final_result none [⟨[], some "Hel"⟩, ⟨[], some "lo"⟩]).1 (by decide),
   (chat_completion_final_result none
      [⟨[⟨0, some "call_1", some "function", some ⟨some "f", some "x"⟩⟩], some "skipped"⟩]).2
     (by decide) (by decide)⟩

/-- C2: for fragments sharing one call index, the accumulated record's
`function.arguments` is the concatenation, in stream order, of every
non-empty `arguments` fragment (concatenation, never replacement). -/
theorem tool_call_arguments_concatenated (i : Nat) (f : DeltaToolCall)
    (fs : List DeltaToolCall) (hf : f.index = i) (hfs : ∀ tc ∈ fs, tc.index = i) :
    ((List.foldl applyFragment [] (f :: fs)).lookup i).map ToolCallRecord.arguments
      = some (concatAll (((f :: fs).map argFragment).filter (fun s => !s.isEmpty))) := by
  subst hf
  rw [List.foldl_cons, applyFragment_nil, foldl_applyFragment_single fs f.index _ hfs]
  rw [concatAll_filter_ne_empty]
  simp only [List.lookup, beq_self_eq_true, Option.map]
  rw [foldl_updRecord_arguments, updRecord_arguments]
  simp [initRecord, concatAll, String.empty_append, String.append_assoc]

theorem tool_call_arguments_concatenated_witness :
    (((List.foldl applyFragment []
        [(⟨0, some "call_1", some "function", some ⟨some "get", some "\x7b\"a\":"⟩⟩ : DeltaToolCall),
         ⟨0, none, none, some ⟨none, some "1\x7d"⟩⟩]).lookup 0).map ToolCallRecord.arguments
      = some (concatAll ((([(⟨0, some "call_1", some "function",
            some ⟨some "get", some "\x7b\"a\":"⟩⟩ : DeltaToolCall),
         ⟨0, none, none, some ⟨none, some "1\x7d"⟩⟩].map argFragment)).filter
            (fun s => !s.isEmpty))))
    ∧ (((List.foldl applyFragment []
        [(⟨0, some "call_1", some "function", some ⟨some "get", some "\x7b\"a\":"⟩⟩ : DeltaToolCall),
         ⟨0, none, none, some ⟨none, some "1\x7d"⟩⟩]).lookup 0).map ToolCallRecord.arguments
      = some "\x7b\"a\":1\x7d") :=
  ⟨tool_call_arguments_concatenated 0 _ _ rfl (by decide), by decide⟩

/-- C3 counterexample: two fragments at index 0 whose `id` fields are both
non-empty; the accumulated `id` is the second value, so the first non-empty
value does not win and later values do overwrite. -/
theorem tool_call_first_value_wins_cex :
    ((List.foldl applyFragment []
        [(⟨0, some "call_a", some "function", none⟩ : DeltaToolCall),
         ⟨0, some "call_b", none, none⟩]).lookup 0).map ToolCallRecord.id
      = some (some "call_b")
    ∧ (some "call_b" : Option String) ≠ some "call_a" := by decide

/-- C3 (amended): for fragments sharing a call index, `id` and `type` start
from the first fragment's raw values and each later non-empty value
overwrites the stored one (last non-empty value wins; empty/None values
never erase a stored value); `function.name` behaves the same starting from
`""`; `arguments` is the concatenation of all fragments' contributions. -/
theorem tool_call_merge_last_non_empty_wins (i : Nat) (f : DeltaToolCall)
    (fs : List DeltaToolCall) (hf : f.index = i) (hfs : ∀ tc ∈ fs, tc.index = i) :
    (List.foldl applyFragment [] (f :: fs)).lookup i
      = some ⟨i, List.foldl idUpd f.id fs, List.foldl typeUpd f.type fs,
              List.foldl nameUpd (nameUpd "" f) fs,
              concatAll ((f :: fs).map argFragment)⟩ := by
  subst hf
  rw [List.foldl_cons, applyFragment_nil, foldl_applyFragment_single fs f.index _ hfs]
  simp only [List.lookup, beq_self_eq_true]
  refine congrArg some (record_eq_of_fields ?_ ?_ ?_ ?_ ?_)
  · rw [foldl_updRecord_index, updRecord_index]
    rfl
  · rw [foldl_updRecord_id, updRecord_id]
    show List.foldl idUpd (idUpd (initRecord f).id f) fs = List.foldl idUpd f.id fs
    congr 1
    simp [idUpd, initRecord]
  · rw [foldl_updRecord_type, updRecord_type]
    show List.foldl typeUpd (typeUpd (initRecord f).type f) fs = List.foldl typeUpd f.type fs
    congr 1
    simp [typeUpd, initRecord]
  · rw [foldl_updRecord_name, updRecord_name]
    rfl
  · rw [foldl_updRecord_arguments, updRecord_arguments]
    simp [initRecord, concatAll, String.empty_append, String.append_assoc]

theorem tool_call_merge_last_non_empty_wins_witness :
    (List.foldl applyFragment []
        [(⟨0, some "call_a", some "function", none⟩ : DeltaToolCall),
         ⟨0, some "call_b", none, some ⟨some "f", some "xy"⟩⟩]).lookup 0
      = some ⟨0,
          List.foldl idUpd (some "call_a") [⟨0, some "call_b", none, some ⟨some "f", some "xy"⟩⟩],
          List.foldl typeUpd (some "function")
            [⟨0, some "call_b", none, some ⟨some "f", some "xy"⟩⟩],
          List.foldl nameUpd (nameUpd "" ⟨0, some "call_a", some "function", none⟩)
            [⟨0, some "call_b", none, some ⟨some "f", some "xy"⟩⟩],
          concatAll ([(⟨0, some "call_a", some "function", none⟩ : DeltaToolCall),
            ⟨0, some "call_b", none, some ⟨some "f", some "xy"⟩⟩].map argFragment)⟩ :=
  tool_call_merge_last_non_empty_wins 0 _ _ rfl (by decide)

/-- C4: an `APIError` whose message contains "does not support tools" makes
`chat_completion` yield the sentinel `__API_NOT_SUPPORT_TOOLS__`, set the
instance's `support_tools` flag to `false`; the flag is never set back to
`true` by any call, and every call with the flag down passes no tools to the
backend request. -/
theorem capability_fault_downgrade (support_tools : Bool) (tools : Option ToolsList)
    (chunks : List Chunk) (msg : List Char)
    (h : containsSub toolsUnsupportedPat msg = true) :
    ((chat_completion support_tools tools chunks (Terminal.apiError msg)).yields
        = [Yielded.text "__API_NOT_SUPPORT_TOOLS__"]
      ∧ (chat_completion support_tools tools chunks (Terminal.apiError msg)).support_tools
        = false)
    ∧ (∀ (st : Bool) (tools2 : Option ToolsList) (chunks2 : List Chunk) (t2 : Terminal),
        (chat_completion st tools2 chunks2 t2).support_tools = true → st = true)
    ∧ (∀ (tools2 : Option ToolsList) (chunks2 : List Chunk) (t2 : Terminal),
        (chat_completion false tools2 chunks2 t2).requestedTools = none) := by
  refine ⟨⟨?_, ?_⟩, ?_, ?_⟩
  · simp [chat_completion, h]
  · simp [chat_completion, h]
  · intro st tools2 chunks2 t2 hst
    cases t2 with
    | normalEnd => simpa [chat_completion] using hst
    | connectionError => simpa [chat_completion] using hst
    | rateLimitError => simpa [chat_completion] using hst
    | apiError m =>
      by_cases hm : containsSub toolsUnsupportedPat m = true
      · simp [chat_completion, hm] at hst
      · simpa [chat_completion, hm] using hst
  · intro tools2 chunks2 t2
    cases t2 <;> simp [chat_completion, availableTools]
    rename_i m
    by_cases hm : containsSub toolsUnsupportedPat m = true <;> simp [hm, availableTools]

theorem capability_fault_downgrade_witness :
    (((chat_completion true (some ["weather"]) []
          (Terminal.apiError "this model does not support tools here".toList)).yields
        = [Yielded.text "__API_NOT_SUPPORT_TOOLS__"])
      ∧ (chat_completion true (some ["weather"]) []
          (Terminal.apiError "this model does not support tools here".toList)).support_tools
        = false)
    ∧ (∀ (st : Bool) (tools2 : Option ToolsList) (chunks2 : List Chunk) (t2 : Terminal),
        (chat_completion st tools2 chunks2 t2).support_tools = true → st = true)
    ∧ (∀ (tools2 : Option ToolsList) (chunks2 : List Chunk) (t2 : Terminal),
        (chat_completion false tools2 chunks2 t2).requestedTools = none) :=
  capability_fault_downgrade true (some ["weather"]) []
    "this model does not support tools here".toList (by decide)

/-- C5 counterexample: a connection fault after a chunk accumulated the text
"Hello" does not make the call yield that partial text; it yields a fixed
error string instead. -/
theorem stream_fault_partial_text_cex :
    (runLoop true [⟨[], some "Hello"⟩]).final_text = "Hello"
    ∧ (chat_completion true none [⟨[], some "Hello"⟩] Terminal.connectionError).yields
        ≠ [Yielded.text "Hello"] := by decide

/-- C5 (amended): a connection fault or rate-limit fault during the stream
does not propagate out of `chat_completion`; the call terminates with a
single yielded fixed human-readable error string substituted for the
accumulated text (which is discarded), and the `support_tools` flag is
unchanged. -/
theorem stream_fault_yields_error_string (support_tools : Bool) (tools : Option ToolsList)
    (chunks : List Chunk) :
    (chat_completion support_tools tools chunks Terminal.connectionError).yields
        = [Yielded.text "Error calling the chat endpoint: Connection error."]
    ∧ (chat_completion support_tools tools chunks Terminal.rateLimitError).yields
        = [Yielded.text "Error calling the chat endpoint: Rate limit exceeded. Please try again later."]
    ∧ (chat_completion support_tools tools chunks Terminal.connectionError).support_tools
        = support_tools
    ∧ (chat_completion support_tools tools chunks Terminal.rateLimitError).support_tools
        = support_tools :=
  ⟨rfl, rfl, rfl, rfl⟩

/-- C6 counterexample: `clean_response` is not idempotent; on `",,a"` the
first pass gives `", ,a"` (the scan resumed after the matched pair, so the
second comma got no space) and a second pass gives `", , a"`. -/
theorem clean_response_not_idempotent_cex :
    clean_response (clean_response ",,a") ≠ clean_response ",,a" := by decide

/-- C6 (amended): `clean_response` is idempotent on every string that
contains no `[` character and no two adjacent punctuation characters; it is
not idempotent in general (see the counterexample with adjacent commas). -/
theorem clean_response_idempotent_restricted (s : String)
    (hb : '[' ∉ s.toList) (hp : noAdjPunct s.toList = true) :
    clean_response (clean_response s) = clean_response s := by
  show (cleanL ((cleanL s.toList).asString).toList).asString = (cleanL s.toList).asString
  exact congrArg List.asString (cleanL_fix hb hp)

theorem clean_response_idempotent_restricted_witness :
    ('[' ∉ ("Hi, there.".toList) ∧ noAdjPunct "Hi, there.".toList = true)
    ∧ clean_response (clean_response "Hi, there.") = clean_response "Hi, there." :=
  ⟨⟨by decide, by decide⟩,
   clean_response_idempotent_restricted "Hi, there." (by decide) (by decide)⟩

/-- C7 counterexample: `clean_response "Wait...what?Really"` is not
`"Wait...what? Really"`. -/
theorem punctuation_spacing_example_cex :
    clean_response "Wait...what?Really" ≠ "Wait...what? Really" := by decide

/-- C7 (amended): `clean_response "Wait...what?Really"` equals
`"Wait. .. what? Really"`: a space is inserted after the `?`, and the regex
also matches inside the run of dots — the pair `..` is matched (a dot is not
whitespace), a space is inserted between the first two dots, the scan
resumes after the pair, and the third dot then gets a space before `w`. -/
theorem punctuation_spacing_example_actual :
    clean_response "Wait...what?Really" = "Wait. .. what? Really" := by decide

/-- C8: an ordinary exception raised while draining the agent stream is
caught, an error event carrying its message is sent, and the turn continues
to normalization with the text accumulated before the exception; with the
remaining stages succeeding, the turn returns the cleaned text normally. -/
theorem drain_error_recovered (env : Env) (m t : String)
    (h1 : env.startOutcome = Except.ok ()) (h2 : env.inputOutcome = Except.ok t)
    (h3 : env.drainExc = some (Exc.err m)) (h4 : env.speakOutcome = Except.ok ())
    (h5 : env.gatherOutcome = Except.ok ()) (h6 : env.finalizeOutcome = Except.ok ()) :
    (process_single_conversation env).1
        = Except.ok (clean_response (fullResponseOf env.drainItems))
    ∧ Event.errorEvent m ∈ (process_single_conversation env).2 := by
  have hdrain_fst : (drainStage env).1 = Except.ok (fullResponseOf env.drainItems) := by
    simp [drainStage, tryCatchErr, h3]
  have hdrain_mem : Event.errorEvent m ∈ (drainStage env).2 := by
    simp [drainStage, tryCatchErr, h3]
  have hgather : (if env.hasTasks = true then
      bindC (liftOutcome env.gatherOutcome) (fun _ => emit Event.synthComplete)
    else pureC ()).1 = Except.ok () := by
    split
    · exact bindC_fst_ok _ _ () (by simp [liftOutcome, h5])
    · rfl
  constructor
  · show (turnBody env).1 = _
    unfold turnBody
    rw [bindC_fst_ok _ _ () (by simp [sendStage, h1])]
    rw [bindC_fst_ok _ _ t (by simp [liftOutcome, h2])]
    rw [bindC_fst_ok _ _ () (by split <;> rfl)]
    rw [bindC_fst_ok _ _ (fullResponseOf env.drainItems) hdrain_fst]
    rw [bindC_fst_ok _ _ () (by split <;> simp [pureC, sendStage, h4])]
    rw [bindC_fst_ok _ _ () hgather]
    rw [bindC_fst_ok _ _ () (by simp [sendStage, h6])]
    rw [bindC_fst_ok _ _ () (by split <;> rfl)]
    rfl
  · show Event.errorEvent m ∈ (turnBody env).2 ++ [Event.cleanupRun]
    apply List.mem_append_left
    unfold turnBody
    apply mem_bindC_right _ _ () (by simp [sendStage, h1])
    apply mem_bindC_right _ _ t (by simp [liftOutcome, h2])
    apply mem_bindC_right _ _ () (by split <;> rfl)
    exact mem_bindC_left _ _ hdrain_mem

theorem drain_error_recovered_witness :
    (process_single_conversation
        ⟨Except.ok (), Except.ok "hi", true, false, [StreamItem.sentence ["Hello[x]world"]],
         some (Exc.err "boom"), Except.ok (), true, Except.ok (), Except.ok ()⟩).1
        = Except.ok (clean_response (fullResponseOf [StreamItem.sentence ["Hello[x]world"]]))
    ∧ Event.errorEvent "boom" ∈ (process_single_conversation
        ⟨Except.ok (), Except.ok "hi", true, false, [StreamItem.sentence ["Hello[x]world"]],
         some (Exc.err "boom"), Except.ok (), true, Except.ok (), Except.ok ()⟩).2 :=
  drain_error_recovered _ "boom" "hi" rfl rfl rfl rfl rfl rfl

/-- C9: on every exit path of `process_single_conversation` the cleanup
routine runs exactly once, as the last effect; and a cancellation raised
while draining the model stream is re-raised to the caller after cleanup
rather than being swallowed or turned into a normal return. -/
theorem cleanup_once_and_cancellation_reraised (env : Env) :
    ((process_single_conversation env).2.count Event.cleanupRun = 1
      ∧ (process_single_conversation env).2.getLast? = some Event.cleanupRun)
    ∧ (∀ t : String, env.startOutcome = Except.ok () → env.inputOutcome = Except.ok t →
        env.drainExc = some Exc.cancelled →
        (process_single_conversation env).1 = Except.error Exc.cancelled) := by
  constructor
  · constructor
    · show ((turnBody env).2 ++ [Event.cleanupRun]).count Event.cleanupRun = 1
      rw [List.count_append,
        List.count_eq_zero_of_not_mem (cleanup_not_in_turnBody env)]
      rfl
    · exact getLast_append_singleton (turnBody env).2 Event.cleanupRun
  · intro t h1 h2 h3
    show (turnBody env).1 = _
    unfold turnBody
    rw [bindC_fst_ok _ _ () (by simp [sendStage, h1])]
    rw [bindC_fst_ok _ _ t (by simp [liftOutcome, h2])]
    rw [bindC_fst_ok _ _ () (by split <;> rfl)]
    rw [bindC_fst_error _ _ Exc.cancelled (by simp [drainStage, tryCatchErr, h3])]

theorem cleanup_once_and_cancellation_reraised_witness :
    (((process_single_conversation
        ⟨Except.ok (), Except.ok "hi", true, false, [], some Exc.cancelled,
         Except.ok (), false, Except.ok (), Except.ok ()⟩).2.count Event.cleanupRun = 1)
      ∧ (process_single_conversation
        ⟨Except.ok (), Except.ok "hi", true, false, [], some Exc.cancelled,
         Except.ok (), false, Except.ok (), Except.ok ()⟩).2.getLast?
          = some Event.cleanupRun)
    ∧ (process_single_conversation
        ⟨Except.ok (), Except.ok "hi", true, false, [], some Exc.cancelled,
         Except.ok (), false, Except.ok (), Except.ok ()⟩).1
          = Except.error Exc.cancelled :=
  ⟨(cleanup_once_and_cancellation_reraised _).1,
   (cleanup_once_and_cancellation_reraised _).2 "hi" rfl rfl rfl⟩

/-- C10: on every terminating invocation (normal end of stream, connection
fault, rate-limit fault, capability fault, or any other API error)
`chat_completion` yields exactly one item. -/
theorem chat_completion_yields_exactly_one (support_tools : Bool)
    (tools : Option ToolsList) (chunks : List Chunk) (t : Terminal) :
    (chat_completion support_tools tools chunks t).yields.length = 1 := by
  cases t with
  | normalEnd => rfl
  | connectionError => rfl
  | rateLimitError => rfl
  | apiError msg =>
    show (if containsSub toolsUnsupportedPat msg then _ else _ : CallResult).yields.length = 1
    split <;> rfl

end Vtuber
